import Mathlib

/-!
Verification of the Chaindrive ride registry (Motoko actor `RideBackend`,
`src/backend`).  The actor's mutable state — a `HashMap<RideId, Ride>` plus a
`nextRideId : Nat` counter — is embedded as an explicit `RegistryState` record
whose map is an insertion-ordered association list (lookup semantics of
`HashMap.get`, replace-or-append semantics of `HashMap.put`).  Each shared
method becomes a pure function from caller identity, arguments, a clock
reading `now : Int` (the actor reads `Time.now()`) and the pre-state to a
`Result` paired with the post-state.  `Principal` is an opaque identity with
decidable equality, embedded as `Nat`; Motoko `Float` values (coordinates,
price) are only stored and compared, never computed with, so they are
embedded as exact rationals.  Errors are the `Text` values the actor returns:
"Ride not found" (NotFound), "Ride is not available for acceptance"
(InvalidState), "Only the assigned driver can complete the ride"
(Unauthorized).
-/

/-- `type RideId = Nat`. -/
abbrev RideId : Type := Nat

/-- `type UserId = Principal`: an opaque identity with decidable equality. -/
abbrev UserId : Type := Nat

/-- `type Location = { latitude : Float; longitude : Float }`. -/
structure Location where
  latitude : ℚ
  longitude : ℚ
deriving DecidableEq, Repr

/-- `type RideStatus = { #pending; #accepted; #completed; #cancelled }`. -/
inductive RideStatus where
  | pending
  | accepted
  | completed
  | cancelled
deriving DecidableEq, Repr

/-- The `Ride` record of `main.mo`. -/
structure Ride where
  id : RideId
  passengerId : UserId
  driverId : Option UserId
  pickupLocation : Location
  dropoffLocation : Location
  status : RideStatus
  price : ℚ
  createdAt : Int
  updatedAt : Int
deriving DecidableEq, Repr

/-- The actor's mutable state: `nextRideId` and the `rides` hash map,
embedded as an insertion-ordered association list. -/
structure RegistryState where
  nextRideId : Nat
  rides : List (RideId × Ride)
deriving DecidableEq, Repr

/-- The freshly deployed actor: `nextRideId = 1`, empty map. -/
def initState : RegistryState := { nextRideId := 1, rides := [] }

/-- `rides.get rideId` on the association list: first entry with the key. -/
def getRideL (l : List (RideId × Ride)) (rideId : RideId) : Option Ride :=
  (l.find? (fun p => p.1 == rideId)).map Prod.snd

/-- `rides.put rideId ride`: replace the entries holding the key if present,
append otherwise (the observable behaviour of `HashMap.put`). -/
def putRide (l : List (RideId × Ride)) (rideId : RideId) (ride : Ride) :
    List (RideId × Ride) :=
  if l.any (fun p => p.1 == rideId) then
    l.map (fun p => if p.1 == rideId then (rideId, ride) else p)
  else
    l ++ [(rideId, ride)]

/-- `createRide(pickupLocation, dropoffLocation, price)` called by `caller`
at clock reading `now`. -/
def createRide (caller : UserId) (pickupLocation dropoffLocation : Location)
    (price : ℚ) (now : Int) (st : RegistryState) :
    Except String Ride × RegistryState :=
  let rideId := st.nextRideId
  let ride : Ride :=
    { id := rideId
      passengerId := caller
      driverId := none
      pickupLocation
      dropoffLocation
      status := RideStatus.pending
      price
      createdAt := now
      updatedAt := now }
  (Except.ok ride,
   { nextRideId := st.nextRideId + 1, rides := putRide st.rides rideId ride })

/-- `getRide(rideId)`: pure lookup. -/
def getRide (st : RegistryState) (rideId : RideId) : Option Ride :=
  getRideL st.rides rideId

/-- `acceptRide(rideId)` called by `caller` at clock reading `now`. -/
def acceptRide (caller : UserId) (rideId : RideId) (now : Int)
    (st : RegistryState) : Except String Ride × RegistryState :=
  match getRideL st.rides rideId with
  | some ride =>
      if ride.status ≠ RideStatus.pending then
        (Except.error "Ride is not available for acceptance", st)
      else
        let updatedRide :=
          { ride with
              driverId := some caller
              status := RideStatus.accepted
              updatedAt := now }
        (Except.ok updatedRide,
         { st with rides := putRide st.rides rideId updatedRide })
  | none => (Except.error "Ride not found", st)

/-- `completeRide(rideId)` called by `caller` at clock reading `now`. -/
def completeRide (caller : UserId) (rideId : RideId) (now : Int)
    (st : RegistryState) : Except String Ride × RegistryState :=
  match getRideL st.rides rideId with
  | some ride =>
      if ride.driverId ≠ some caller then
        (Except.error "Only the assigned driver can complete the ride", st)
      else
        let updatedRide :=
          { ride with
              status := RideStatus.completed
              updatedAt := now }
        (Except.ok updatedRide,
         { st with rides := putRide st.rides rideId updatedRide })
  | none => (Except.error "Ride not found", st)

/-- `getAvailableRides()`: full scan keeping the rides whose status is
`#pending`. -/
def getAvailableRides (st : RegistryState) : List Ride :=
  (st.rides.map Prod.snd).filter (fun ride => ride.status == RideStatus.pending)

/-- `getPassengerRides(passengerId)`: full scan on `passengerId`. -/
def getPassengerRides (st : RegistryState) (passengerId : UserId) : List Ride :=
  (st.rides.map Prod.snd).filter (fun ride => ride.passengerId == passengerId)

/-- `getDriverRides(driverId)`: full scan on the assigned driver. -/
def getDriverRides (st : RegistryState) (driverId : UserId) : List Ride :=
  (st.rides.map Prod.snd).filter (fun ride => ride.driverId == some driverId)

/-- One call to a state-mutating method of the actor, with the clock reading
`Time.now()` observed during the call. -/
inductive Op where
  | create (caller : UserId) (pickupLocation dropoffLocation : Location)
      (price : ℚ) (now : Int)
  | accept (caller : UserId) (rideId : RideId) (now : Int)
  | complete (caller : UserId) (rideId : RideId) (now : Int)
deriving DecidableEq, Repr

/-- Run one call, returning its result and the post-state. -/
def runOp (op : Op) (st : RegistryState) : Except String Ride × RegistryState :=
  match op with
  | Op.create caller pickupLocation dropoffLocation price now =>
      createRide caller pickupLocation dropoffLocation price now st
  | Op.accept caller rideId now => acceptRide caller rideId now st
  | Op.complete caller rideId now => completeRide caller rideId now st

/-- The state transformer of one call. -/
def applyOp (op : Op) (st : RegistryState) : RegistryState := (runOp op st).2

/-- Run a sequence of calls from a given state. -/
def execFrom (st : RegistryState) (tr : List Op) : RegistryState :=
  tr.foldl (fun s op => applyOp op s) st

/-- Run a sequence of calls from the freshly deployed actor. -/
def execTrace (tr : List Op) : RegistryState := execFrom initState tr

/-- The clock reading observed by a call. -/
def opTime : Op → Int
  | Op.create _ _ _ _ now => now
  | Op.accept _ _ now => now
  | Op.complete _ _ now => now

/-- Successive clock readings along a trace strictly increase. -/
def TimesMono (tr : List Op) : Prop :=
  (tr.map opTime).Chain' (· < ·)

instance : DecidablePred TimesMono := fun tr =>
  inferInstanceAs (Decidable ((tr.map opTime).Chain' (· < ·)))

/-! ### Lookup lemmas for the embedded `HashMap.put` -/

/-- Replacing the entries holding key `k` makes the lookup of `k` return the
new ride, provided some entry held `k`. -/
theorem find_replace_self (k : RideId) (v : Ride) :
    ∀ l : List (RideId × Ride), l.any (fun p => p.1 == k) = true →
      (l.map (fun p => if p.1 == k then (k, v) else p)).find?
        (fun p => p.1 == k) = some (k, v) := by
  intro l
  induction l with
  | nil => intro h; simp at h
  | cons p t ih =>
    intro h
    by_cases hp : (p.1 == k) = true
    · simp only [List.map_cons, if_pos hp]
      exact List.find?_cons_of_pos _ (by simp)
    · simp only [List.any_cons, hp, Bool.false_or] at h
      simp only [List.map_cons, if_neg hp]
      rw [List.find?_cons_of_neg _ (by simp [hp])]
      exact ih h

/-- Replacing the entries holding key `k` leaves the lookup of any other key
unchanged. -/
theorem find_replace_ne (k k' : RideId) (v : Ride) (h : k' ≠ k) :
    ∀ l : List (RideId × Ride),
      (l.map (fun p => if p.1 == k then (k, v) else p)).find?
        (fun p => p.1 == k') = l.find? (fun p => p.1 == k') := by
  intro l
  induction l with
  | nil => rfl
  | cons p t ih =>
    simp only [List.map_cons]
    by_cases hp : (p.1 == k) = true
    · have hpk : p.1 = k := by simpa using hp
      rw [if_pos hp, List.find?_cons_of_neg _ (by simp [Ne.symm h]),
        List.find?_cons_of_neg _ (by simp [hpk, Ne.symm h])]
      exact ih
    · rw [if_neg hp]
      by_cases hq : (p.1 == k') = true
      · simp only [List.find?_cons, hq]
      · have hq' : (p.1 == k') = false := by simpa using hq
        simp only [List.find?_cons, hq']
        exact ih

/-- `put` then `get` on the same key returns the stored ride. -/
theorem getRideL_putRide_self (l : List (RideId × Ride)) (k : RideId)
    (v : Ride) : getRideL (putRide l k v) k = some v := by
  unfold getRideL putRide
  by_cases h : l.any (fun p => p.1 == k) = true
  · rw [if_pos h, find_replace_self k v l h]
    rfl
  · rw [if_neg h, List.find?_append]
    have hl : l.find? (fun p => p.1 == k) = none := by
      rw [List.find?_eq_none]
      intro x hx hpx
      exact h (List.any_eq_true.mpr ⟨x, hx, hpx⟩)
    simp [hl]

/-- `put` on key `k` leaves the lookup of any other key unchanged. -/
theorem getRideL_putRide_ne (l : List (RideId × Ride)) (k k' : RideId)
    (v : Ride) (h : k' ≠ k) : getRideL (putRide l k v) k' = getRideL l k' := by
  unfold getRideL putRide
  by_cases hany : l.any (fun p => p.1 == k) = true
  · rw [if_pos hany, find_replace_ne k k' v h l]
  · rw [if_neg hany, List.find?_append]
    have hs : List.find? (fun p => p.1 == k') [(k, v)] = none := by
      simp [Ne.symm h]
    cases hfind : l.find? (fun p => p.1 == k') <;> simp [hs]

/-! ### Concrete example data (used by witnesses) -/

/-- Pickup location (6.5, 3.3) from the spec's round-trip property. -/
def locA : Location := { latitude := 6.5, longitude := 3.3 }

/-- Dropoff location (5.0, 7.5) from the spec's round-trip property. -/
def locB : Location := { latitude := 5, longitude := 7.5 }

/-- Registry after passenger 7 created one ride (id 1, pending) at time 10. -/
def st1 : RegistryState := execTrace [Op.create 7 locA locB 12.5 10]

/-- The pending ride stored in `st1`. -/
def ride1 : Ride :=
  { id := 1, passengerId := 7, driverId := none, pickupLocation := locA,
    dropoffLocation := locB, status := RideStatus.pending, price := 12.5,
    createdAt := 10, updatedAt := 10 }

/-- Registry after driver 9 additionally accepted ride 1 at time 20. -/
def st2 : RegistryState :=
  execTrace [Op.create 7 locA locB 12.5 10, Op.accept 9 1 20]

/-- The accepted ride stored in `st2`. -/
def ride2 : Ride :=
  { ride1 with
      driverId := some 9
      status := RideStatus.accepted
      updatedAt := 20 }

/-- Registry after driver 9 additionally completed ride 1 at time 30. -/
def st3 : RegistryState :=
  execTrace [Op.create 7 locA locB 12.5 10, Op.accept 9 1 20,
    Op.complete 9 1 30]

/-- The completed ride stored in `st3`. -/
def ride3 : Ride :=
  { ride2 with status := RideStatus.completed, updatedAt := 30 }

/-! ### C1 -/

/-- C1: on a ride whose status is pending, `acceptRide` by any caller
returns success with status `accepted`, `driverId = some caller` and
`updatedAt = now`; every other field of the ride, every other ride and the
id counter are unchanged, and the returned record is the one stored. -/
theorem acceptRide_pending_spec (caller : UserId) (rideId : RideId)
    (now : Int) (st : RegistryState) (r : Ride)
    (hget : getRide st rideId = some r)
    (hpending : r.status = RideStatus.pending) :
    ∃ r', (acceptRide caller rideId now st).1 = Except.ok r' ∧
      r'.status = RideStatus.accepted ∧
      r'.driverId = some caller ∧
      r'.updatedAt = now ∧
      r'.id = r.id ∧ r'.passengerId = r.passengerId ∧
      r'.pickupLocation = r.pickupLocation ∧
      r'.dropoffLocation = r.dropoffLocation ∧
      r'.price = r.price ∧ r'.createdAt = r.createdAt ∧
      getRide (acceptRide caller rideId now st).2 rideId = some r' ∧
      (∀ otherId, otherId ≠ rideId →
        getRide (acceptRide caller rideId now st).2 otherId =
          getRide st otherId) ∧
      (acceptRide caller rideId now st).2.nextRideId = st.nextRideId := by
  have hget' : getRideL st.rides rideId = some r := hget
  have hacc : acceptRide caller rideId now st =
      (Except.ok
        { r with
            driverId := some caller
            status := RideStatus.accepted
            updatedAt := now },
       { st with
           rides := putRide st.rides rideId
             { r with
                 driverId := some caller
                 status := RideStatus.accepted
                 updatedAt := now } }) := by
    unfold acceptRide
    rw [hget']
    simp [hpending]
  simp only [hacc]
  exact ⟨_, rfl, rfl, rfl, rfl, rfl, rfl, rfl, rfl, rfl, rfl,
    getRideL_putRide_self st.rides rideId _,
    fun otherId hne => getRideL_putRide_ne st.rides rideId otherId _ hne,
    trivial⟩

/-- C1 witness: driver 9 accepts the pending ride 1 of `st1` at time 20. -/
theorem acceptRide_pending_spec_witness :
    ∃ r', (acceptRide 9 1 20 st1).1 = Except.ok r' ∧
      r'.status = RideStatus.accepted ∧
      r'.driverId = some 9 ∧
      r'.updatedAt = 20 ∧
      r'.id = ride1.id ∧ r'.passengerId = ride1.passengerId ∧
      r'.pickupLocation = ride1.pickupLocation ∧
      r'.dropoffLocation = ride1.dropoffLocation ∧
      r'.price = ride1.price ∧ r'.createdAt = ride1.createdAt ∧
      getRide (acceptRide 9 1 20 st1).2 1 = some r' ∧
      (∀ otherId, otherId ≠ 1 →
        getRide (acceptRide 9 1 20 st1).2 otherId = getRide st1 otherId) ∧
      (acceptRide 9 1 20 st1).2.nextRideId = st1.nextRideId :=
  acceptRide_pending_spec 9 1 20 st1 ride1 rfl (by decide)

/-! ### C2 -/

/-- C2: on a ride whose `driverId` equals `some caller`, `completeRide`
returns success with status `completed` and `updatedAt = now`, regardless of
the ride's current status (no `status == accepted` check exists, so an
already-completed ride can be completed again by its driver); every other
field, every other ride and the id counter are unchanged. -/
theorem completeRide_driver_spec (caller : UserId) (rideId : RideId)
    (now : Int) (st : RegistryState) (r : Ride)
    (hget : getRide st rideId = some r)
    (hdrv : r.driverId = some caller) :
    ∃ r', (completeRide caller rideId now st).1 = Except.ok r' ∧
      r'.status = RideStatus.completed ∧
      r'.updatedAt = now ∧
      r'.id = r.id ∧ r'.passengerId = r.passengerId ∧
      r'.driverId = r.driverId ∧
      r'.pickupLocation = r.pickupLocation ∧
      r'.dropoffLocation = r.dropoffLocation ∧
      r'.price = r.price ∧ r'.createdAt = r.createdAt ∧
      getRide (completeRide caller rideId now st).2 rideId = some r' ∧
      (∀ otherId, otherId ≠ rideId →
        getRide (completeRide caller rideId now st).2 otherId =
          getRide st otherId) ∧
      (completeRide caller rideId now st).2.nextRideId = st.nextRideId := by
  have hget' : getRideL st.rides rideId = some r := hget
  have hcomp : completeRide caller rideId now st =
      (Except.ok
        { r with
            status := RideStatus.completed
            updatedAt := now },
       { st with
           rides := putRide st.rides rideId
             { r with
                 status := RideStatus.completed
                 updatedAt := now } }) := by
    unfold completeRide
    rw [hget']
    simp [hdrv]
  simp only [hcomp]
  exact ⟨_, rfl, rfl, rfl, rfl, rfl, rfl, rfl, rfl, rfl, rfl,
    getRideL_putRide_self st.rides rideId _,
    fun otherId hne => getRideL_putRide_ne st.rides rideId otherId _ hne,
    trivial⟩

/-- C2 witness: driver 9 re-completes the already-completed ride 1 of `st3`
at time 40. -/
theorem completeRide_driver_spec_witness :
    ∃ r', (completeRide 9 1 40 st3).1 = Except.ok r' ∧
      r'.status = RideStatus.completed ∧
      r'.updatedAt = 40 ∧
      r'.id = ride3.id ∧ r'.passengerId = ride3.passengerId ∧
      r'.driverId = ride3.driverId ∧
      r'.pickupLocation = ride3.pickupLocation ∧
      r'.dropoffLocation = ride3.dropoffLocation ∧
      r'.price = ride3.price ∧ r'.createdAt = ride3.createdAt ∧
      getRide (completeRide 9 1 40 st3).2 1 = some r' ∧
      (∀ otherId, otherId ≠ 1 →
        getRide (completeRide 9 1 40 st3).2 otherId = getRide st3 otherId) ∧
      (completeRide 9 1 40 st3).2.nextRideId = st3.nextRideId :=
  completeRide_driver_spec 9 1 40 st3 ride3 rfl rfl

/-! ### C3 -/

/-- C3: `acceptRide` on an unknown id returns the NotFound error
("Ride not found"), and on a ride whose status is not pending returns the
InvalidState error "Ride is not available for acceptance"; in both cases
the whole registry state is returned unmodified. -/
theorem acceptRide_error_spec (caller : UserId) (rideId : RideId) (now : Int)
    (st : RegistryState) :
    (getRide st rideId = none →
      acceptRide caller rideId now st = (Except.error "Ride not found", st)) ∧
    (∀ r, getRide st rideId = some r → r.status ≠ RideStatus.pending →
      acceptRide caller rideId now st =
        (Except.error "Ride is not available for acceptance", st)) := by
  constructor
  · intro h
    unfold acceptRide
    rw [show getRideL st.rides rideId = none from h]
  · intro r h hst
    unfold acceptRide
    rw [show getRideL st.rides rideId = some r from h]
    simp [hst]

/-- C3 witness: accepting the unknown id 5 in `st1`, and accepting the
already-accepted ride 1 in `st2`. -/
theorem acceptRide_error_spec_witness :
    acceptRide 9 5 20 st1 = (Except.error "Ride not found", st1) ∧
    acceptRide 4 1 30 st2 =
      (Except.error "Ride is not available for acceptance", st2) :=
  ⟨(acceptRide_error_spec 9 5 20 st1).1 rfl,
   (acceptRide_error_spec 4 1 30 st2).2 ride2 rfl (by decide)⟩

/-! ### C4 -/

/-- C4: `completeRide` on an unknown id returns the NotFound error
("Ride not found"), and by any caller other than the stored `driverId`
(including every caller while `driverId` is null) returns the Unauthorized
error "Only the assigned driver can complete the ride"; in both cases the
whole registry state is returned unmodified. -/
theorem completeRide_error_spec (caller : UserId) (rideId : RideId)
    (now : Int) (st : RegistryState) :
    (getRide st rideId = none →
      completeRide caller rideId now st =
        (Except.error "Ride not found", st)) ∧
    (∀ r, getRide st rideId = some r → r.driverId ≠ some caller →
      completeRide caller rideId now st =
        (Except.error "Only the assigned driver can complete the ride", st)) := by
  constructor
  · intro h
    unfold completeRide
    rw [show getRideL st.rides rideId = none from h]
  · intro r h hdrv
    unfold completeRide
    rw [show getRideL st.rides rideId = some r from h]
    simp [hdrv]

/-- C4 witness: completing the unknown id 5 in `st1`, and completing the
pending ride 1 of `st1` (whose `driverId` is null) as caller 9. -/
theorem completeRide_error_spec_witness :
    completeRide 9 5 20 st1 = (Except.error "Ride not found", st1) ∧
    completeRide 9 1 20 st1 =
      (Except.error "Only the assigned driver can complete the ride", st1) :=
  ⟨(completeRide_error_spec 9 5 20 st1).1 rfl,
   (completeRide_error_spec 9 1 20 st1).2 ride1 rfl (by decide)⟩

/-! ### Structural helper lemmas -/

/-- A successful lookup exhibits the found entry as a member of the list. -/
theorem getRideL_mem_key (l : List (RideId × Ride)) (k : RideId) (r : Ride)
    (h : getRideL l k = some r) : (k, r) ∈ l := by
  unfold getRideL at h
  cases hf : l.find? (fun p => p.1 == k) with
  | none => rw [hf] at h; simp at h
  | some p =>
    rw [hf] at h
    have hp : p.2 = r := by simpa using h
    have hk : p.1 = k := by simpa using List.find?_some hf
    have : p = (k, r) := by
      cases p
      simp_all
    rw [← this]
    exact List.mem_of_find?_eq_some hf

/-- Every entry of `putRide l k v` is the new entry or an old one. -/
theorem mem_putRide (l : List (RideId × Ride)) (k : RideId) (v : Ride)
    (p : RideId × Ride) (h : p ∈ putRide l k v) : p = (k, v) ∨ p ∈ l := by
  unfold putRide at h
  split at h
  · obtain ⟨q, hq, hfq⟩ := List.mem_map.mp h
    by_cases hqk : (q.1 == k) = true
    · left; rw [← hfq]; simp [hqk]
    · right; rw [← hfq]; simpa [hqk] using hq
  · rcases List.mem_append.mp h with h | h
    · right; exact h
    · left; simpa using h

/-- Replacing the entries holding key `k` leaves the key list unchanged. -/
theorem keys_replace (k : RideId) (v : Ride) :
    ∀ l : List (RideId × Ride),
      (l.map (fun p => if p.1 == k then (k, v) else p)).map Prod.fst =
        l.map Prod.fst := by
  intro l
  induction l with
  | nil => rfl
  | cons p t ih =>
    simp only [List.map_cons]
    by_cases hp : (p.1 == k) = true
    · have : p.1 = k := by simpa using hp
      rw [if_pos hp, ih]
      simp [this]
    · rw [if_neg hp, ih]

/-- With pairwise-distinct keys, membership determines the lookup. -/
theorem getRideL_of_mem_nodup (l : List (RideId × Ride)) (p : RideId × Ride)
    (hm : p ∈ l) (hn : (l.map Prod.fst).Nodup) : getRideL l p.1 = some p.2 := by
  induction l with
  | nil => cases hm
  | cons q t ih =>
    rcases List.mem_cons.mp hm with rfl | hm'
    · unfold getRideL
      rw [List.find?_cons_of_pos _ (by simp)]
      rfl
    · have hq : q.1 ≠ p.1 := by
        intro hqp
        have : p.1 ∈ t.map Prod.fst := List.mem_map.mpr ⟨p, hm', rfl⟩
        rw [List.map_cons] at hn
        exact (List.nodup_cons.mp hn).1 (hqp ▸ this)
      unfold getRideL
      rw [List.find?_cons_of_neg _ (by simp [hq])]
      exact ih hm' (List.nodup_cons.mp (List.map_cons Prod.fst q t ▸ hn)).2

/-- When the key is absent, `putRide` appends the new entry. -/
theorem putRide_absent (l : List (RideId × Ride)) (k : RideId) (v : Ride)
    (h : ∀ p ∈ l, p.1 ≠ k) : putRide l k v = l ++ [(k, v)] := by
  unfold putRide
  rw [if_neg]
  intro hany
  obtain ⟨p, hp, hpk⟩ := List.any_eq_true.mp hany
  exact h p hp (by simpa using hpk)

/-- Inversion of a successful `acceptRide`: the returned record is the stored
ride with driver, status and timestamp updated. -/
theorem acceptRide_ok_inversion (caller : UserId) (rideId : RideId)
    (now : Int) (st : RegistryState) (r r' : Ride)
    (hget : getRide st rideId = some r)
    (hok : (acceptRide caller rideId now st).1 = Except.ok r') :
    r.status = RideStatus.pending ∧
    r' = { r with
             driverId := some caller
             status := RideStatus.accepted
             updatedAt := now } := by
  have hget' : getRideL st.rides rideId = some r := hget
  unfold acceptRide at hok
  rw [hget'] at hok
  by_cases hs : r.status = RideStatus.pending
  · simp only [hs, ne_eq, not_true_eq_false, if_false, ite_false] at hok
    have : r' = { r with
                    driverId := some caller
                    status := RideStatus.accepted
                    updatedAt := now } := by
      cases hok
      rfl
    exact ⟨hs, this⟩
  · simp [hs] at hok

/-- Inversion of a successful `completeRide`: the caller is the stored driver
and the returned record is the stored ride completed. -/
theorem completeRide_ok_inversion (caller : UserId) (rideId : RideId)
    (now : Int) (st : RegistryState) (r r' : Ride)
    (hget : getRide st rideId = some r)
    (hok : (completeRide caller rideId now st).1 = Except.ok r') :
    r.driverId = some caller ∧
    r' = { r with
             status := RideStatus.completed
             updatedAt := now } := by
  have hget' : getRideL st.rides rideId = some r := hget
  unfold completeRide at hok
  rw [hget'] at hok
  by_cases hd : r.driverId = some caller
  · simp only [hd, ne_eq, not_true_eq_false, if_false, ite_false] at hok
    have : r' = { r with
                    status := RideStatus.completed
                    updatedAt := now } := by
      cases hok
      rw [hd]
    exact ⟨hd, this⟩
  · simp [hd] at hok

/-! ### Reachable-state invariant -/

/-- Structural invariant of the registry: keys are pairwise distinct, every
key is below the counter and equals its ride's id, a driver is recorded
exactly on accepted or completed rides, and no ride is cancelled. -/
def StateInv (st : RegistryState) : Prop :=
  (st.rides.map Prod.fst).Nodup ∧
  ∀ p ∈ st.rides, p.1 < st.nextRideId ∧ p.2.id = p.1 ∧
    (p.2.driverId ≠ none ↔
      (p.2.status = RideStatus.accepted ∨ p.2.status = RideStatus.completed)) ∧
    p.2.status ≠ RideStatus.cancelled

/-- The freshly deployed actor satisfies the invariant. -/
theorem stateInv_init : StateInv initState := by
  constructor
  · simp [initState]
  · intro p hp
    simp [initState] at hp

/-- Every call preserves the invariant. -/
theorem stateInv_applyOp (op : Op) (st : RegistryState) (h : StateInv st) :
    StateInv (applyOp op st) := by
  obtain ⟨hnodup, hmem⟩ := h
  cases op with
  | create caller pickup dropoff price now =>
    have habs : ∀ p ∈ st.rides, p.1 ≠ st.nextRideId := fun p hp =>
      Nat.ne_of_lt (hmem p hp).1
    have happ : applyOp (Op.create caller pickup dropoff price now) st =
        { nextRideId := st.nextRideId + 1
          rides := st.rides ++
            [(st.nextRideId,
              { id := st.nextRideId
                passengerId := caller
                driverId := none
                pickupLocation := pickup
                dropoffLocation := dropoff
                status := RideStatus.pending
                price := price
                createdAt := now
                updatedAt := now })] } := by
      simp only [applyOp, runOp, createRide]
      rw [putRide_absent _ _ _ habs]
    rw [happ]
    constructor
    · rw [List.map_append, List.nodup_append]
      refine ⟨hnodup, by simp, ?_⟩
      intro a ha hb
      obtain ⟨p, hp, rfl⟩ := List.mem_map.mp ha
      have : p.1 = st.nextRideId := by simpa using hb
      exact habs p hp this
    · intro p hp
      rcases List.mem_append.mp hp with hold | hnew
      · obtain ⟨h1, h2, h3, h4⟩ := hmem p hold
        exact ⟨show p.1 < st.nextRideId + 1 from Nat.lt_succ_of_lt h1, h2, h3,
          h4⟩
      · have : p = (st.nextRideId,
            { id := st.nextRideId
              passengerId := caller
              driverId := none
              pickupLocation := pickup
              dropoffLocation := dropoff
              status := RideStatus.pending
              price := price
              createdAt := now
              updatedAt := now }) := by simpa using hnew
        rw [this]
        refine ⟨show st.nextRideId < st.nextRideId + 1 by omega, rfl, by simp,
          by simp⟩
  | accept caller rideId now =>
    cases hget : getRideL st.rides rideId with
    | none =>
      have : applyOp (Op.accept caller rideId now) st = st := by
        simp [applyOp, runOp, acceptRide, hget]
      rw [this]
      exact ⟨hnodup, hmem⟩
    | some q =>
      by_cases hq : q.status = RideStatus.pending
      · have happ : applyOp (Op.accept caller rideId now) st =
            { st with
                rides := putRide st.rides rideId
                  { q with
                      driverId := some caller
                      status := RideStatus.accepted
                      updatedAt := now } } := by
          simp [applyOp, runOp, acceptRide, hget, hq]
        rw [happ]
        have hqmem : (rideId, q) ∈ st.rides := getRideL_mem_key _ _ _ hget
        have hpresent : st.rides.any (fun p => p.1 == rideId) = true :=
          List.any_eq_true.mpr ⟨(rideId, q), hqmem, by simp⟩
        constructor
        · show ((putRide st.rides rideId _).map Prod.fst).Nodup
          unfold putRide
          rw [if_pos hpresent, keys_replace]
          exact hnodup
        · intro p hp
          rcases mem_putRide _ _ _ _ hp with rfl | hold
          · obtain ⟨h1, h2, _, _⟩ := hmem _ hqmem
            exact ⟨h1, by simpa using h2, by simp, by simp⟩
          · exact hmem p hold
      · have : applyOp (Op.accept caller rideId now) st = st := by
          simp [applyOp, runOp, acceptRide, hget, hq]
        rw [this]
        exact ⟨hnodup, hmem⟩
  | complete caller rideId now =>
    cases hget : getRideL st.rides rideId with
    | none =>
      have : applyOp (Op.complete caller rideId now) st = st := by
        simp [applyOp, runOp, completeRide, hget]
      rw [this]
      exact ⟨hnodup, hmem⟩
    | some q =>
      by_cases hd : q.driverId = some caller
      · have happ : applyOp (Op.complete caller rideId now) st =
            { st with
                rides := putRide st.rides rideId
                  { q with
                      status := RideStatus.completed
                      updatedAt := now } } := by
          simp [applyOp, runOp, completeRide, hget, hd]
        rw [happ]
        have hqmem : (rideId, q) ∈ st.rides := getRideL_mem_key _ _ _ hget
        have hpresent : st.rides.any (fun p => p.1 == rideId) = true :=
          List.any_eq_true.mpr ⟨(rideId, q), hqmem, by simp⟩
        constructor
        · show ((putRide st.rides rideId _).map Prod.fst).Nodup
          unfold putRide
          rw [if_pos hpresent, keys_replace]
          exact hnodup
        · intro p hp
          rcases mem_putRide _ _ _ _ hp with rfl | hold
          · obtain ⟨h1, h2, _, _⟩ := hmem _ hqmem
            refine ⟨h1, by simpa using h2, ?_, by simp⟩
            simp [hd]
          · exact hmem p hold
      · have : applyOp (Op.complete caller rideId now) st = st := by
          simp [applyOp, runOp, completeRide, hget, hd]
        rw [this]
        exact ⟨hnodup, hmem⟩

/-- The invariant holds after running any trace from an invariant state. -/
theorem stateInv_execFrom : ∀ (tr : List Op) (st : RegistryState),
    StateInv st → StateInv (execFrom st tr) := by
  intro tr
  induction tr with
  | nil => intro st h; exact h
  | cons op rest ih =>
    intro st h
    exact ih (applyOp op st) (stateInv_applyOp op st h)

/-- The invariant holds in every reachable state. -/
theorem stateInv_execTrace (tr : List Op) : StateInv (execTrace tr) :=
  stateInv_execFrom tr initState stateInv_init

/-! ### C5 -/

/-- One call changes a stored ride's status only along
pending → accepted (acceptRide) or accepted → completed (completeRide). -/
theorem status_step (op : Op) (st : RegistryState) (hinv : StateInv st)
    (rideId : RideId) (r r' : Ride)
    (h1 : getRide st rideId = some r)
    (h2 : getRide (applyOp op st) rideId = some r')
    (hne : r.status ≠ r'.status) :
    (r.status = RideStatus.pending ∧ r'.status = RideStatus.accepted) ∨
    (r.status = RideStatus.accepted ∧ r'.status = RideStatus.completed) := by
  obtain ⟨hnodup, hmem⟩ := hinv
  cases op with
  | create caller pickup dropoff price now =>
    have hkey : (rideId, r) ∈ st.rides := getRideL_mem_key _ _ _ h1
    have hlt : rideId < st.nextRideId := (hmem _ hkey).1
    have hsame : getRide (applyOp (Op.create caller pickup dropoff price now)
        st) rideId = getRide st rideId := by
      show getRideL (putRide st.rides st.nextRideId _) rideId = _
      exact getRideL_putRide_ne _ _ _ _ (Nat.ne_of_lt hlt)
    rw [hsame, h1] at h2
    exact absurd (congrArg Ride.status (Option.some.inj h2)) hne
  | accept caller target now =>
    cases hget : getRideL st.rides target with
    | none =>
      have hid : applyOp (Op.accept caller target now) st = st := by
        simp [applyOp, runOp, acceptRide, hget]
      rw [hid, h1] at h2
      exact absurd (congrArg Ride.status (Option.some.inj h2)) hne
    | some q =>
      by_cases hq : q.status = RideStatus.pending
      · have happ : applyOp (Op.accept caller target now) st =
            { st with
                rides := putRide st.rides target
                  { q with
                      driverId := some caller
                      status := RideStatus.accepted
                      updatedAt := now } } := by
          simp [applyOp, runOp, acceptRide, hget, hq]
        by_cases ht : rideId = target
        · subst ht
          have hr : r = q := by
            have := h1
            unfold getRide at this
            rw [hget] at this
            exact (Option.some.inj this).symm
          have hr' : r' = { q with
                              driverId := some caller
                              status := RideStatus.accepted
                              updatedAt := now } := by
            rw [happ] at h2
            have : getRide { st with
                rides := putRide st.rides rideId
                  { q with
                      driverId := some caller
                      status := RideStatus.accepted
                      updatedAt := now } } rideId =
                some { q with
                         driverId := some caller
                         status := RideStatus.accepted
                         updatedAt := now } :=
              getRideL_putRide_self st.rides rideId _
            rw [this] at h2
            exact (Option.some.inj h2).symm
          left
          rw [hr, hr']
          exact ⟨hq, rfl⟩
        · have hsame : getRide (applyOp (Op.accept caller target now) st)
              rideId = getRide st rideId := by
            rw [happ]
            exact getRideL_putRide_ne _ _ _ _ ht
          rw [hsame, h1] at h2
          exact absurd (congrArg Ride.status (Option.some.inj h2)) hne
      · have hid : applyOp (Op.accept caller target now) st = st := by
          simp [applyOp, runOp, acceptRide, hget, hq]
        rw [hid, h1] at h2
        exact absurd (congrArg Ride.status (Option.some.inj h2)) hne
  | complete caller target now =>
    cases hget : getRideL st.rides target with
    | none =>
      have hid : applyOp (Op.complete caller target now) st = st := by
        simp [applyOp, runOp, completeRide, hget]
      rw [hid, h1] at h2
      exact absurd (congrArg Ride.status (Option.some.inj h2)) hne
    | some q =>
      by_cases hd : q.driverId = some caller
      · have happ : applyOp (Op.complete caller target now) st =
            { st with
                rides := putRide st.rides target
                  { q with
                      status := RideStatus.completed
                      updatedAt := now } } := by
          simp [applyOp, runOp, completeRide, hget, hd]
        by_cases ht : rideId = target
        · subst ht
          have hr : r = q := by
            have := h1
            unfold getRide at this
            rw [hget] at this
            exact (Option.some.inj this).symm
          have hr' : r' = { q with
                              status := RideStatus.completed
                              updatedAt := now } := by
            rw [happ] at h2
            have : getRide { st with
                rides := putRide st.rides rideId
                  { q with
                      status := RideStatus.completed
                      updatedAt := now } } rideId =
                some { q with
                         status := RideStatus.completed
                         updatedAt := now } :=
              getRideL_putRide_self st.rides rideId _
            rw [this] at h2
            exact (Option.some.inj h2).symm
          have hqmem : (rideId, q) ∈ st.rides := getRideL_mem_key _ _ _ hget
          have hiff := (hmem _ hqmem).2.2.1
          have hq : q.status = RideStatus.accepted ∨
              q.status = RideStatus.completed :=
            hiff.mp (by simp [hd])
          rcases hq with hq | hq
          · right
            rw [hr, hr']
            exact ⟨hq, rfl⟩
          · exfalso
            apply hne
            rw [hr, hr', hq]
        · have hsame : getRide (applyOp (Op.complete caller target now) st)
              rideId = getRide st rideId := by
            rw [happ]
            exact getRideL_putRide_ne _ _ _ _ ht
          rw [hsame, h1] at h2
          exact absurd (congrArg Ride.status (Option.some.inj h2)) hne
      · have hid : applyOp (Op.complete caller target now) st = st := by
          simp [applyOp, runOp, completeRide, hget, hd]
        rw [hid, h1] at h2
        exact absurd (congrArg Ride.status (Option.some.inj h2)) hne

/-- C5: along every operation sequence from the initial empty registry, a
stored ride's status changes only pending → accepted or accepted → completed
(a subset of the allowed pending→accepted→completed / pending→cancelled
moves), and no reachable state stores a ride with status cancelled. -/
theorem status_transitions_spec :
    (∀ tr : List Op, ∀ p ∈ (execTrace tr).rides,
      p.2.status ≠ RideStatus.cancelled) ∧
    (∀ (tr : List Op) (op : Op) (rideId : RideId) (r r' : Ride),
      getRide (execTrace tr) rideId = some r →
      getRide (applyOp op (execTrace tr)) rideId = some r' →
      r.status ≠ r'.status →
      (r.status = RideStatus.pending ∧ r'.status = RideStatus.accepted) ∨
      (r.status = RideStatus.accepted ∧ r'.status = RideStatus.completed)) := by
  constructor
  · intro tr p hp
    exact ((stateInv_execTrace tr).2 p hp).2.2.2
  · intro tr op rideId r r' h1 h2 hne
    exact status_step op (execTrace tr) (stateInv_execTrace tr) rideId r r'
      h1 h2 hne

/-- C5 witness: accepting ride 1 moves its status pending → accepted. -/
theorem status_transitions_spec_witness :
    (ride1.status = RideStatus.pending ∧
      ride2.status = RideStatus.accepted) ∨
    (ride1.status = RideStatus.accepted ∧
      ride2.status = RideStatus.completed) :=
  status_transitions_spec.2 [Op.create 7 locA locB 12.5 10]
    (Op.accept 9 1 20) 1 ride1 ride2 rfl rfl (by decide)

/-! ### C6 -/

/-- A driver is recorded on a ride exactly when its status is accepted or
completed. -/
def DriverStatusInv (st : RegistryState) : Prop :=
  ∀ p ∈ st.rides,
    p.2.driverId ≠ none ↔
      (p.2.status = RideStatus.accepted ∨ p.2.status = RideStatus.completed)

instance : DecidablePred DriverStatusInv := fun st =>
  inferInstanceAs (Decidable (∀ p ∈ st.rides, _ ↔ _))

/-- C6: `driverId` is non-null iff the status is accepted or completed: the
invariant holds in the initial empty registry, is preserved by every single
call (createRide, acceptRide, completeRide), and therefore holds in every
reachable state. -/
theorem driver_iff_status_spec :
    DriverStatusInv initState ∧
    (∀ (op : Op) (st : RegistryState),
      DriverStatusInv st → DriverStatusInv (applyOp op st)) ∧
    (∀ tr : List Op, DriverStatusInv (execTrace tr)) := by
  have hstep : ∀ (op : Op) (st : RegistryState),
      DriverStatusInv st → DriverStatusInv (applyOp op st) := by
    intro op st h
    cases op with
    | create caller pickup dropoff price now =>
      intro p hp
      have hp' : p ∈ putRide st.rides st.nextRideId
          { id := st.nextRideId
            passengerId := caller
            driverId := none
            pickupLocation := pickup
            dropoffLocation := dropoff
            status := RideStatus.pending
            price := price
            createdAt := now
            updatedAt := now } := hp
      rcases mem_putRide _ _ _ _ hp' with rfl | hold
      · simp
      · exact h p hold
    | accept caller rideId now =>
      cases hget : getRideL st.rides rideId with
      | none =>
        have hid : applyOp (Op.accept caller rideId now) st = st := by
          simp [applyOp, runOp, acceptRide, hget]
        rw [hid]
        exact h
      | some q =>
        by_cases hq : q.status = RideStatus.pending
        · have happ : applyOp (Op.accept caller rideId now) st =
              { st with
                  rides := putRide st.rides rideId
                    { q with
                        driverId := some caller
                        status := RideStatus.accepted
                        updatedAt := now } } := by
            simp [applyOp, runOp, acceptRide, hget, hq]
          rw [happ]
          intro p hp
          rcases mem_putRide _ _ _ _ hp with rfl | hold
          · simp
          · exact h p hold
        · have hid : applyOp (Op.accept caller rideId now) st = st := by
            simp [applyOp, runOp, acceptRide, hget, hq]
          rw [hid]
          exact h
    | complete caller rideId now =>
      cases hget : getRideL st.rides rideId with
      | none =>
        have hid : applyOp (Op.complete caller rideId now) st = st := by
          simp [applyOp, runOp, completeRide, hget]
        rw [hid]
        exact h
      | some q =>
        by_cases hd : q.driverId = some caller
        · have happ : applyOp (Op.complete caller rideId now) st =
              { st with
                  rides := putRide st.rides rideId
                    { q with
                        status := RideStatus.completed
                        updatedAt := now } } := by
            simp [applyOp, runOp, completeRide, hget, hd]
          rw [happ]
          intro p hp
          rcases mem_putRide _ _ _ _ hp with rfl | hold
          · simp [hd]
          · exact h p hold
        · have hid : applyOp (Op.complete caller rideId now) st = st := by
            simp [applyOp, runOp, completeRide, hget, hd]
          rw [hid]
          exact h
  refine ⟨?_, hstep, ?_⟩
  · intro p hp
    simp [initState] at hp
  · intro tr
    intro p hp
    exact ((stateInv_execTrace tr).2 p hp).2.2.1

/-- C6 witness: the invariant holds on `st1` and is preserved by driver 9
accepting ride 1 there. -/
theorem driver_iff_status_spec_witness :
    DriverStatusInv (applyOp (Op.accept 9 1 20) st1) :=
  driver_iff_status_spec.2.1 (Op.accept 9 1 20) st1 (by decide)

/-! ### C7 -/

/-- Whether a call is a `createRide` call. -/
def isCreate : Op → Bool
  | Op.create _ _ _ _ _ => true
  | _ => false

/-- The ids of the rides returned by the `createRide` calls of a trace run
from `st`, in call-completion order. -/
def createdIdsFrom (st : RegistryState) : List Op → List RideId
  | [] => []
  | op :: rest =>
      match op, (runOp op st).1 with
      | Op.create _ _ _ _ _, Except.ok r =>
          r.id :: createdIdsFrom (applyOp op st) rest
      | _, _ => createdIdsFrom (applyOp op st) rest

/-- The ids returned by the `createRide` calls of a trace run from the
freshly deployed actor. -/
def createdIds (tr : List Op) : List RideId := createdIdsFrom initState tr

/-- A call bumps the counter by one exactly when it is a `createRide`. -/
theorem nextRideId_applyOp (op : Op) (st : RegistryState) :
    (applyOp op st).nextRideId =
      st.nextRideId + (if isCreate op then 1 else 0) := by
  cases op with
  | create caller pickup dropoff price now =>
    simp [applyOp, runOp, createRide, isCreate]
  | accept caller rideId now =>
    cases hget : getRideL st.rides rideId with
    | none => simp [applyOp, runOp, acceptRide, hget, isCreate]
    | some q =>
      by_cases hq : q.status = RideStatus.pending
      · simp [applyOp, runOp, acceptRide, hget, hq, isCreate]
      · simp [applyOp, runOp, acceptRide, hget, hq, isCreate]
  | complete caller rideId now =>
    cases hget : getRideL st.rides rideId with
    | none => simp [applyOp, runOp, completeRide, hget, isCreate]
    | some q =>
      by_cases hd : q.driverId = some caller
      · simp [applyOp, runOp, completeRide, hget, hd, isCreate]
      · simp [applyOp, runOp, completeRide, hget, hd, isCreate]

/-- Along any trace the returned create-ids are at least the current counter
and strictly increasing. -/
theorem createdIdsFrom_bounds : ∀ (tr : List Op) (st : RegistryState),
    (∀ i ∈ createdIdsFrom st tr, st.nextRideId ≤ i) ∧
    (createdIdsFrom st tr).Pairwise (· < ·) := by
  intro tr
  induction tr with
  | nil => intro st; exact ⟨(fun i hi => nomatch hi), List.Pairwise.nil⟩
  | cons op rest ih =>
    intro st
    cases op with
    | create caller pickup dropoff price now =>
      have hred : createdIdsFrom st
          (Op.create caller pickup dropoff price now :: rest) =
          st.nextRideId ::
            createdIdsFrom
              (applyOp (Op.create caller pickup dropoff price now) st)
              rest := rfl
      have hnext : (applyOp (Op.create caller pickup dropoff price now)
          st).nextRideId = st.nextRideId + 1 := by
        rw [nextRideId_applyOp]
        simp [isCreate]
      obtain ⟨hb, hp⟩ := ih
        (applyOp (Op.create caller pickup dropoff price now) st)
      rw [hred]
      constructor
      · intro i hi
        rcases List.mem_cons.mp hi with rfl | hi'
        · exact Nat.le_refl _
        · have := hb i hi'
          rw [hnext] at this
          omega
      · refine List.pairwise_cons.mpr ⟨?_, hp⟩
        intro i hi
        have := hb i hi
        rw [hnext] at this
        show st.nextRideId < i
        omega
    | accept caller rideId now =>
      have hred : createdIdsFrom st (Op.accept caller rideId now :: rest) =
          createdIdsFrom (applyOp (Op.accept caller rideId now) st) rest :=
        rfl
      have hnext : (applyOp (Op.accept caller rideId now) st).nextRideId =
          st.nextRideId := by
        rw [nextRideId_applyOp]
        simp [isCreate]
      obtain ⟨hb, hp⟩ := ih (applyOp (Op.accept caller rideId now) st)
      rw [hred]
      refine ⟨fun i hi => ?_, hp⟩
      have := hb i hi
      rw [hnext] at this
      exact this
    | complete caller rideId now =>
      have hred : createdIdsFrom st (Op.complete caller rideId now :: rest) =
          createdIdsFrom (applyOp (Op.complete caller rideId now) st) rest :=
        rfl
      have hnext : (applyOp (Op.complete caller rideId now) st).nextRideId =
          st.nextRideId := by
        rw [nextRideId_applyOp]
        simp [isCreate]
      obtain ⟨hb, hp⟩ := ih (applyOp (Op.complete caller rideId now) st)
      rw [hred]
      refine ⟨fun i hi => ?_, hp⟩
      have := hb i hi
      rw [hnext] at this
      exact this

/-- Running a trace adds the number of its `createRide` calls to the
counter. -/
theorem nextRideId_execFrom : ∀ (tr : List Op) (st : RegistryState),
    (execFrom st tr).nextRideId =
      st.nextRideId + tr.countP (fun op => isCreate op) := by
  intro tr
  induction tr with
  | nil => intro st; simp [execFrom]
  | cons op rest ih =>
    intro st
    have hred : execFrom st (op :: rest) = execFrom (applyOp op st) rest :=
      rfl
    rw [hred, ih, nextRideId_applyOp, List.countP_cons]
    cases hc : isCreate op with
    | false => simp [hc]
    | true =>
      simp [hc]
      omega

/-- C7: the ids returned by the `createRide` calls of any trace are strictly
increasing in call-completion order, hence pairwise distinct and never
reused; the counter starts at 1, each `createRide` bumps it by exactly one,
and after any trace it equals 1 plus the number of creates. -/
theorem createRide_ids_spec :
    (∀ tr : List Op, (createdIds tr).Pairwise (· < ·)) ∧
    (∀ tr : List Op, (createdIds tr).Nodup) ∧
    initState.nextRideId = 1 ∧
    (∀ (caller : UserId) (pickup dropoff : Location) (price : ℚ) (now : Int)
        (st : RegistryState),
      (createRide caller pickup dropoff price now st).2.nextRideId =
        st.nextRideId + 1) ∧
    (∀ tr : List Op,
      (execTrace tr).nextRideId =
        1 + tr.countP (fun op => isCreate op)) := by
  refine ⟨?_, ?_, rfl, ?_, ?_⟩
  · intro tr
    exact (createdIdsFrom_bounds tr initState).2
  · intro tr
    exact ((createdIdsFrom_bounds tr initState).2).imp Nat.ne_of_lt
  · intro caller pickup dropoff price now st
    rfl
  · intro tr
    exact nextRideId_execFrom tr initState

/-! ### C8 -/

/-- C8: `createRide` always succeeds: it allocates the current counter value
as the id, bumps the counter, stores a pending ride with `passengerId` the
caller, no driver, the given locations and price, and both timestamps `now`,
and returns exactly the stored record; in particular creating a ride with
pickup (6.5, 3.3), dropoff (5.0, 7.5) and price 12.5 by any caller `P` and
looking its id up returns a pending, driverless ride of `P` priced 12.5. -/
theorem createRide_spec :
    (∀ (caller : UserId) (pickup dropoff : Location) (price : ℚ) (now : Int)
        (st : RegistryState),
      (createRide caller pickup dropoff price now st).1 =
        Except.ok
          { id := st.nextRideId
            passengerId := caller
            driverId := none
            pickupLocation := pickup
            dropoffLocation := dropoff
            status := RideStatus.pending
            price := price
            createdAt := now
            updatedAt := now } ∧
      (createRide caller pickup dropoff price now st).2.nextRideId =
        st.nextRideId + 1 ∧
      getRide (createRide caller pickup dropoff price now st).2
          st.nextRideId =
        some
          { id := st.nextRideId
            passengerId := caller
            driverId := none
            pickupLocation := pickup
            dropoffLocation := dropoff
            status := RideStatus.pending
            price := price
            createdAt := now
            updatedAt := now }) ∧
    (∀ (P : UserId) (now : Int),
      ∃ (rideId : RideId) (r : Ride),
        (createRide P { latitude := 6.5, longitude := 3.3 }
            { latitude := 5, longitude := 7.5 } 12.5 now initState).1 =
          Except.ok r ∧
        getRide (createRide P { latitude := 6.5, longitude := 3.3 }
            { latitude := 5, longitude := 7.5 } 12.5 now initState).2
            rideId =
          some r ∧
        r.passengerId = P ∧ r.driverId = none ∧
        r.status = RideStatus.pending ∧ r.price = 12.5) := by
  constructor
  · intro caller pickup dropoff price now st
    exact ⟨rfl, rfl, getRideL_putRide_self st.rides st.nextRideId _⟩
  · intro P now
    refine ⟨1, _, rfl, ?_, rfl, rfl, rfl, rfl⟩
    exact getRideL_putRide_self initState.rides 1 _

/-! ### C10 -/

/-- C10: in every reachable state, `getAvailableRides` returns exactly the
stored rides whose status is pending: a ride is in the returned list iff it
is stored under some id and pending. -/
theorem getAvailableRides_spec (tr : List Op) (r : Ride) :
    r ∈ getAvailableRides (execTrace tr) ↔
      ((∃ rideId, getRide (execTrace tr) rideId = some r) ∧
        r.status = RideStatus.pending) := by
  obtain ⟨hnodup, _⟩ := stateInv_execTrace tr
  constructor
  · intro h
    unfold getAvailableRides at h
    obtain ⟨hmem, hstat⟩ := List.mem_filter.mp h
    have hstat' : r.status = RideStatus.pending := by simpa using hstat
    obtain ⟨p, hp, hpr⟩ := List.mem_map.mp hmem
    refine ⟨⟨p.1, ?_⟩, hstat'⟩
    rw [← hpr]
    exact getRideL_of_mem_nodup _ p hp hnodup
  · rintro ⟨⟨rideId, hget⟩, hstat⟩
    unfold getAvailableRides
    refine List.mem_filter.mpr ⟨?_, by simpa using hstat⟩
    exact List.mem_map.mpr ⟨(rideId, r), getRideL_mem_key _ _ _ hget, rfl⟩

/-! ### C9 -/

/-- Clock readings along a trace, all above a strict lower bound `t`. -/
def TimesMonoFrom (t : Int) : List Op → Prop
  | [] => True
  | op :: rest => t < opTime op ∧ TimesMonoFrom (opTime op) rest

/-- The last clock reading of a trace, or `t` for the empty trace. -/
def endTime (t : Int) : List Op → Int
  | [] => t
  | op :: rest => endTime (opTime op) rest

/-- A strictly increasing trace is strictly increasing from any bound below
its first clock reading. -/
theorem timesMonoFrom_of_timesMono : ∀ (tr : List Op) (t : Int),
    TimesMono tr → (∀ u, (tr.map opTime).head? = some u → t < u) →
    TimesMonoFrom t tr := by
  intro tr
  induction tr with
  | nil => intro t _ _; trivial
  | cons op rest ih =>
    intro t h hh
    have hchain := List.chain'_cons'.mp h
    refine ⟨hh (opTime op) rfl, ?_⟩
    exact ih (opTime op) hchain.2 hchain.1

/-- Every strictly increasing trace admits a strict lower bound. -/
theorem timesMonoFrom_exists (tr : List Op) (h : TimesMono tr) :
    ∃ t, TimesMonoFrom t tr := by
  cases tr with
  | nil => exact ⟨0, trivial⟩
  | cons op rest =>
    refine ⟨opTime op - 1, ?_⟩
    apply timesMonoFrom_of_timesMono _ _ h
    intro u hu
    have : u = opTime op := by simpa using hu.symm
    omega

/-- Splitting a strictly increasing trace at its final call: the prefix is
strictly increasing and ends strictly before the final call's clock. -/
theorem timesMonoFrom_append_last : ∀ (tr : List Op) (t : Int) (op : Op),
    TimesMonoFrom t (tr ++ [op]) →
    TimesMonoFrom t tr ∧ endTime t tr < opTime op := by
  intro tr
  induction tr with
  | nil => intro t op h; exact ⟨trivial, h.1⟩
  | cons op0 rest ih =>
    intro t op h
    obtain ⟨h1, h2⟩ := h
    obtain ⟨h3, h4⟩ := ih (opTime op0) op h2
    exact ⟨⟨h1, h3⟩, h4⟩

/-- One call at a clock strictly after the bound keeps every stored ride's
`createdAt ≤ updatedAt` and bounds every `updatedAt` by the call's clock. -/
theorem timeBound_applyOp (op : Op) (st : RegistryState) (t : Int)
    (h : ∀ p ∈ st.rides, p.2.createdAt ≤ p.2.updatedAt ∧ p.2.updatedAt ≤ t)
    (ht : t < opTime op) :
    ∀ p ∈ (applyOp op st).rides,
      p.2.createdAt ≤ p.2.updatedAt ∧ p.2.updatedAt ≤ opTime op := by
  cases op with
  | create caller pickup dropoff price now =>
    intro p hp
    have hp' : p ∈ putRide st.rides st.nextRideId
        { id := st.nextRideId
          passengerId := caller
          driverId := none
          pickupLocation := pickup
          dropoffLocation := dropoff
          status := RideStatus.pending
          price := price
          createdAt := now
          updatedAt := now } := hp
    rcases mem_putRide _ _ _ _ hp' with rfl | hold
    · exact ⟨le_refl _, le_refl _⟩
    · obtain ⟨h1, h2⟩ := h p hold
      exact ⟨h1, le_trans h2 (le_of_lt ht)⟩
  | accept caller rideId now =>
    cases hget : getRideL st.rides rideId with
    | none =>
      have hid : applyOp (Op.accept caller rideId now) st = st := by
        simp [applyOp, runOp, acceptRide, hget]
      rw [hid]
      intro p hp
      obtain ⟨h1, h2⟩ := h p hp
      exact ⟨h1, le_trans h2 (le_of_lt ht)⟩
    | some q =>
      by_cases hq : q.status = RideStatus.pending
      · have happ : applyOp (Op.accept caller rideId now) st =
            { st with
                rides := putRide st.rides rideId
                  { q with
                      driverId := some caller
                      status := RideStatus.accepted
                      updatedAt := now } } := by
          simp [applyOp, runOp, acceptRide, hget, hq]
        rw [happ]
        intro p hp
        rcases mem_putRide _ _ _ _ hp with rfl | hold
        · have hqmem : (rideId, q) ∈ st.rides := getRideL_mem_key _ _ _ hget
          obtain ⟨h1, h2⟩ := h _ hqmem
          refine ⟨?_, le_refl _⟩
          show q.createdAt ≤ now
          have h1' : q.createdAt ≤ q.updatedAt := h1
          have h2' : q.updatedAt ≤ t := h2
          have ht' : t < now := ht
          omega
        · obtain ⟨h1, h2⟩ := h p hold
          exact ⟨h1, le_trans h2 (le_of_lt ht)⟩
      · have hid : applyOp (Op.accept caller rideId now) st = st := by
          simp [applyOp, runOp, acceptRide, hget, hq]
        rw [hid]
        intro p hp
        obtain ⟨h1, h2⟩ := h p hp
        exact ⟨h1, le_trans h2 (le_of_lt ht)⟩
  | complete caller rideId now =>
    cases hget : getRideL st.rides rideId with
    | none =>
      have hid : applyOp (Op.complete caller rideId now) st = st := by
        simp [applyOp, runOp, completeRide, hget]
      rw [hid]
      intro p hp
      obtain ⟨h1, h2⟩ := h p hp
      exact ⟨h1, le_trans h2 (le_of_lt ht)⟩
    | some q =>
      by_cases hd : q.driverId = some caller
      · have happ : applyOp (Op.complete caller rideId now) st =
            { st with
                rides := putRide st.rides rideId
                  { q with
                      status := RideStatus.completed
                      updatedAt := now } } := by
          simp [applyOp, runOp, completeRide, hget, hd]
        rw [happ]
        intro p hp
        rcases mem_putRide _ _ _ _ hp with rfl | hold
        · have hqmem : (rideId, q) ∈ st.rides := getRideL_mem_key _ _ _ hget
          obtain ⟨h1, h2⟩ := h _ hqmem
          refine ⟨?_, le_refl _⟩
          show q.createdAt ≤ now
          have h1' : q.createdAt ≤ q.updatedAt := h1
          have h2' : q.updatedAt ≤ t := h2
          have ht' : t < now := ht
          omega
        · obtain ⟨h1, h2⟩ := h p hold
          exact ⟨h1, le_trans h2 (le_of_lt ht)⟩
      · have hid : applyOp (Op.complete caller rideId now) st = st := by
          simp [applyOp, runOp, completeRide, hget, hd]
        rw [hid]
        intro p hp
        obtain ⟨h1, h2⟩ := h p hp
        exact ⟨h1, le_trans h2 (le_of_lt ht)⟩

/-- Along a strictly increasing trace, timestamps stay coherent and bounded
by the trace's last clock reading. -/
theorem timeBound_execFrom : ∀ (tr : List Op) (st : RegistryState) (t : Int),
    (∀ p ∈ st.rides, p.2.createdAt ≤ p.2.updatedAt ∧ p.2.updatedAt ≤ t) →
    TimesMonoFrom t tr →
    ∀ p ∈ (execFrom st tr).rides,
      p.2.createdAt ≤ p.2.updatedAt ∧ p.2.updatedAt ≤ endTime t tr := by
  intro tr
  induction tr with
  | nil => intro st t h _; exact h
  | cons op rest ih =>
    intro st t h hm
    exact ih (applyOp op st) (opTime op)
      (timeBound_applyOp op st t h hm.1) hm.2

/-- C9: under strictly increasing clock readings, every stored ride of every
reachable state satisfies `createdAt ≤ updatedAt`, and every successful
mutation of a stored ride (`acceptRide` or `completeRide` as the trace's
next call) makes its `updatedAt` strictly larger than before. -/
theorem timestamps_spec :
    (∀ tr : List Op, TimesMono tr →
      ∀ p ∈ (execTrace tr).rides, p.2.createdAt ≤ p.2.updatedAt) ∧
    (∀ (tr : List Op) (caller : UserId) (rideId : RideId) (now : Int)
        (r r' : Ride),
      TimesMono (tr ++ [Op.accept caller rideId now]) →
      getRide (execTrace tr) rideId = some r →
      (acceptRide caller rideId now (execTrace tr)).1 = Except.ok r' →
      r.updatedAt < r'.updatedAt) ∧
    (∀ (tr : List Op) (caller : UserId) (rideId : RideId) (now : Int)
        (r r' : Ride),
      TimesMono (tr ++ [Op.complete caller rideId now]) →
      getRide (execTrace tr) rideId = some r →
      (completeRide caller rideId now (execTrace tr)).1 = Except.ok r' →
      r.updatedAt < r'.updatedAt) := by
  have hbound : ∀ (tr : List Op) (t : Int), TimesMonoFrom t tr →
      ∀ p ∈ (execTrace tr).rides,
        p.2.createdAt ≤ p.2.updatedAt ∧ p.2.updatedAt ≤ endTime t tr := by
    intro tr t hm
    exact timeBound_execFrom tr initState t
      (by intro p hp; exact absurd hp (by simp [initState])) hm
  refine ⟨?_, ?_, ?_⟩
  · intro tr hmono p hp
    obtain ⟨t, hfrom⟩ := timesMonoFrom_exists tr hmono
    exact (hbound tr t hfrom p hp).1
  · intro tr caller rideId now r r' hmono hget hok
    obtain ⟨t, hfrom⟩ := timesMonoFrom_exists _ hmono
    obtain ⟨hfrom', hlast⟩ := timesMonoFrom_append_last tr t _ hfrom
    have hmem : (rideId, r) ∈ (execTrace tr).rides :=
      getRideL_mem_key _ _ _ hget
    have hr := (hbound tr t hfrom' _ hmem).2
    have hub : r.updatedAt ≤ endTime t tr := hr
    have hr' := (acceptRide_ok_inversion caller rideId now (execTrace tr)
      r r' hget hok).2
    have : r'.updatedAt = now := by rw [hr']
    have hnow : endTime t tr < now := hlast
    omega
  · intro tr caller rideId now r r' hmono hget hok
    obtain ⟨t, hfrom⟩ := timesMonoFrom_exists _ hmono
    obtain ⟨hfrom', hlast⟩ := timesMonoFrom_append_last tr t _ hfrom
    have hmem : (rideId, r) ∈ (execTrace tr).rides :=
      getRideL_mem_key _ _ _ hget
    have hr := (hbound tr t hfrom' _ hmem).2
    have hub : r.updatedAt ≤ endTime t tr := hr
    have hr' := (completeRide_ok_inversion caller rideId now (execTrace tr)
      r r' hget hok).2
    have : r'.updatedAt = now := by rw [hr']
    have hnow : endTime t tr < now := hlast
    omega

/-- C9 witness: accepting ride 1 at time 20 after its creation at time 10
strictly increases its `updatedAt` (from 10 to 20). -/
theorem timestamps_spec_witness : ride1.updatedAt < ride2.updatedAt :=
  timestamps_spec.2.1 [Op.create 7 locA locB 12.5 10] 9 1 20 ride1 ride2
    (by simp [TimesMono, opTime, List.chain'_cons]) rfl rfl
